import Mathlib

/-
Verification of the trip-leg construction engine (src/thor/triplegbuilder.cc).

The development shallowly embeds the functions of the source file that the
properties below are about.  Machine floating point geometry (PointLL
distances, trim_shape from midgard) is external to the source file under
analysis; where a property only depends on sizes or on algebraic structure,
those external quantities are carried as environment data or rationals.
-/

/-- Admin descriptor as exposed by AdminInfo (country and state codes/texts). -/
structure AdminInfo where
  country_iso : String
  country_text : String
  state_iso : String
  state_text : String
deriving DecidableEq

/-- State threaded through admin interning: the unordered_map from descriptor
to dense index (modelled as an association list; the hash map order is
irrelevant because it is only queried by key) and the ordered list. -/
structure AdminState where
  map : List (AdminInfo × Nat)
  list : List AdminInfo
deriving DecidableEq

/-- Key lookup in the association list modelling the unordered_map. -/
def lookupAdmin (m : List (AdminInfo × Nat)) (a : AdminInfo) : Option Nat :=
  (m.find? (fun p => decide (p.1 = a))).map (fun p => p.2)

/-- GetAdminIndex (triplegbuilder.cc lines 57-82): if the descriptor is not in
the map, assign the next index (the current list length), append it to the
list and record the pair in the map; otherwise return the known index. -/
def GetAdminIndex (a : AdminInfo) (s : AdminState) : Nat × AdminState :=
  match lookupAdmin s.map a with
  | none => (s.list.length, ⟨(a, s.list.length) :: s.map, s.list ++ [a]⟩)
  | some i => (i, s)

/-- The empty interning state at the start of Build. -/
def emptyAdminState : AdminState := ⟨[], []⟩

/-- Run GetAdminIndex over a sequence of descriptors, collecting the
returned indices. -/
def runAdmins : List AdminInfo → AdminState → List Nat × AdminState
  | [], s => ([], s)
  | a :: as, s =>
    let r := GetAdminIndex a s
    let rest := runAdmins as r.2
    (r.1 :: rest.1, rest.2)

/-- First-reference order of a sequence of descriptors: keep each descriptor
at its first occurrence, given the set of descriptors already seen. -/
def firstRefs (seen : List AdminInfo) : List AdminInfo → List AdminInfo
  | [] => []
  | a :: as => if a ∈ seen then firstRefs seen as else a :: firstRefs (a :: seen) as

/-- Consistency invariant tying the map to the list: looking a descriptor up
in the map yields exactly its position in the list when present and nothing
otherwise. -/
def adminConsistent (s : AdminState) : Prop :=
  s.list.Nodup ∧ ∀ a : AdminInfo,
    lookupAdmin s.map a = if a ∈ s.list then some (s.list.indexOf a) else none

/-- A candidate edge attached to a location (Location::PathEdge); only the
graph id matters for pruning. -/
structure PathEdge where
  graph_id : Nat
deriving DecidableEq

/-- RemovePathEdges (triplegbuilder.cc lines 218-229): find the first
candidate whose id equals the designated edge id.  If none matches, clear
the list; if the list has more than one element, swap the match to position
0 and delete the rest; a single matching element is left untouched. -/
def RemovePathEdges (path_edges : List PathEdge) (edge_id : Nat) : List PathEdge :=
  match path_edges.find? (fun e => e.graph_id == edge_id) with
  | none => []
  | some e => if 1 < path_edges.length then [e] else path_edges

/-- Traversability value emitted on a trip edge. -/
inductive Traversability where
  | kNone
  | kForward
  | kBackward
  | kBoth
deriving DecidableEq

/-- Travel modes of sif::TravelMode. -/
inductive TravelMode where
  | kDrive
  | kPedestrian
  | kBicycle
  | kPublicTransit
deriving DecidableEq

/-- Access bit masks.  The numeric values live in baldr/graphconstants.h,
outside the analysed source; only distinctness of the bits matters here. -/
def kAutoAccess : Nat := 1

def kPedestrianAccess : Nat := 2

def kBicycleAccess : Nat := 4

/-- Mask selection of AddTripEdge (triplegbuilder.cc lines 568-575):
bicycle uses the bicycle mask, drive the auto mask, pedestrian and public
transit the pedestrian mask. -/
def accessMaskForMode : TravelMode → Nat
  | TravelMode.kBicycle => kBicycleAccess
  | TravelMode.kDrive => kAutoAccess
  | TravelMode.kPedestrian => kPedestrianAccess
  | TravelMode.kPublicTransit => kPedestrianAccess

/-- Traversability computation of AddTripEdge (triplegbuilder.cc lines
577-608).  When the directed edge is traversed forward the forward access
drives Forward, otherwise the roles of the two access masks are exchanged. -/
def traversabilityFromAccess (forward : Bool) (forwardaccess reverseaccess mask : Nat) :
    Traversability :=
  if forward then
    if forwardaccess &&& mask ≠ 0 then
      if reverseaccess &&& mask ≠ 0 then Traversability.kBoth else Traversability.kForward
    else
      if reverseaccess &&& mask ≠ 0 then Traversability.kBackward else Traversability.kNone
  else
    if forwardaccess &&& mask ≠ 0 then
      if reverseaccess &&& mask ≠ 0 then Traversability.kBoth else Traversability.kBackward
    else
      if reverseaccess &&& mask ≠ 0 then Traversability.kForward else Traversability.kNone

/-- The edge traversability as emitted by the edge assembler for a mode. -/
def edgeTraversability (mode : TravelMode) (forward : Bool)
    (forwardaccess reverseaccess : Nat) : Traversability :=
  traversabilityFromAccess forward forwardaccess reverseaccess (accessMaskForMode mode)

/-- Swap of the directional traversability values. -/
def swapTraversability : Traversability → Traversability
  | Traversability.kForward => Traversability.kBackward
  | Traversability.kBackward => Traversability.kForward
  | t => t

/-- The breakpoint/speed tuples derived from the traffic record in
SetShapeAttributes (triplegbuilder.cc lines 131-146).  Every tuple carries
the baseline speed; breakpoint bytes only position the cuts.  speed3Raw is
compared against the UNKNOWN_TRAFFIC_SPEED_RAW marker, whose numeric value
lives outside the analysed source and is passed in. -/
def trafficSpeedTuples (speed : ℚ) (cut_for_traffic : Bool)
    (breakpoint1 breakpoint2 speed3Raw unknownRaw : Nat) : List (ℚ × ℚ) :=
  if cut_for_traffic then
    if 0 < breakpoint1 then
      ((breakpoint1 : ℚ) / 255, speed) ::
        (if 0 < breakpoint2 then
          ((breakpoint2 : ℚ) / 255, speed) ::
            (if speed3Raw ≠ unknownRaw then [(1, speed)] else [])
        else [])
    else []
  else []

/-- The complete percent/speed list of SetShapeAttributes (triplegbuilder.cc
lines 127-150): baseline speed, optional traffic-derived cut tuples, and the
sentinel appended when no tuple covers tgt_pct. -/
def SetShapeAttributesSpeeds (length src_pct tgt_pct edge_seconds : ℚ)
    (cut_for_traffic : Bool) (breakpoint1 breakpoint2 speed3Raw unknownRaw : Nat) :
    List (ℚ × ℚ) :=
  let speed := length * (tgt_pct - src_pct) / edge_seconds
  let speeds := trafficSpeedTuples speed cut_for_traffic breakpoint1 breakpoint2
    speed3Raw unknownRaw
  match speeds.getLast? with
  | none => speeds ++ [(tgt_pct, speed)]
  | some p => if p.1 < tgt_pct then speeds ++ [(tgt_pct, speed)] else speeds

/-- The directed-edge attributes consulted by the modelled part of
AddTripEdge. -/
structure DirectedEdge where
  turnlanes : Bool
  laneconnectivity : Bool
  access_restriction : Bool
  forward : Bool
  forwardaccess : Nat
  reverseaccess : Nat
  classification : Nat
  use : Nat
  toll : Bool
  unpaved : Bool
  tunnel : Bool
  bridge : Bool
  roundabout : Bool
  internal : Bool
  destonly : Bool
  truck_route : Bool
  surface : Nat
deriving DecidableEq

/-- Tile-side data consulted by the modelled part of AddTripEdge: per-lane
turn-lane masks, lane-connectivity records, mode-filtered access restriction
types and edge names. -/
structure GraphTileData where
  turnlanes : List Nat
  lane_connectivity : List Nat
  access_restriction_types : List Nat
  names : List (String × Bool)
deriving DecidableEq

/-- The attribute flags of the AttributesController consulted by the
modelled parts of the builder.  kEdgeTurnLanes and kEdgeLaneConnectivity are
declared because the controller carries them, although the source never
consults them (lines 543 and 610). -/
structure AttributesController where
  kEdgeNames : Bool
  kEdgeRoadClass : Bool
  kEdgeTraversability : Bool
  kEdgeTurnLanes : Bool
  kEdgeLaneConnectivity : Bool
  kEdgeUse : Bool
  kEdgeToll : Bool
  kEdgeUnpaved : Bool
  kEdgeTunnel : Bool
  kEdgeBridge : Bool
  kEdgeRoundabout : Bool
  kEdgeInternalIntersection : Bool
  kEdgeDriveOnRight : Bool
  kEdgeSurface : Bool
  kEdgeDestinationOnly : Bool
  kEdgeTruckRoute : Bool
  kEdgeId : Bool
  kEdgeWayId : Bool
  kEdgeBeginShapeIndex : Bool
  kEdgeEndShapeIndex : Bool
  kEdgeLength : Bool
  kNodeaAdminIndex : Bool
  kAdminCategory : Bool
  kAdminCountryCode : Bool
  kAdminCountryText : Bool
  kAdminStateCode : Bool
  kAdminStateText : Bool
deriving DecidableEq

/-- The controller with every modelled attribute disabled. -/
def allOffController : AttributesController :=
  ⟨false, false, false, false, false, false, false, false, false, false, false,
   false, false, false, false, false, false, false, false, false, false, false,
   false, false, false, false, false⟩

/-- Output edge record, restricted to the modelled attributes.  An Option
field is none exactly when the protobuf field is left unset; repeated fields
are lists. -/
structure TripLeg_Edge where
  name : List (String × Bool)
  road_class : Option Nat
  traversability : Option Traversability
  turn_lanes : List Nat
  lane_connectivity : List Nat
  restriction_type : Option Nat
  has_time_restrictions : Option Bool
  use : Option Nat
  toll : Option Bool
  unpaved : Option Bool
  tunnel : Option Bool
  bridge : Option Bool
  roundabout : Option Bool
  internal_intersection : Option Bool
  drive_on_right : Option Bool
  surface : Option Nat
  destination_only : Option Bool
  truck_route : Option Bool
  id : Option Nat
  way_id : Option Nat
deriving DecidableEq

/-- AddTripEdge (triplegbuilder.cc lines 407-1045), restricted to the
modelled attributes.  Notable places transcribed exactly from the source:
turn lanes (line 543) test only the directed edge bit, the lane-connectivity
controller test is commented out in the source (line 610), the restriction
type (line 772) tests only the edge bit and the restriction index, and
has_time_restrictions (line 779) is written unconditionally. -/
def AddTripEdge (c : AttributesController) (edge_id way_id : Nat) (mode : TravelMode)
    (de : DirectedEdge) (tile : GraphTileData) (drive_on_right : Bool)
    (restrictions_idx : Int) : TripLeg_Edge :=
  { name := if c.kEdgeNames then tile.names else []
    road_class := if c.kEdgeRoadClass then some de.classification else none
    traversability :=
      if c.kEdgeTraversability then
        some (edgeTraversability mode de.forward de.forwardaccess de.reverseaccess)
      else none
    turn_lanes := if de.turnlanes then tile.turnlanes else []
    lane_connectivity := if de.laneconnectivity then tile.lane_connectivity else []
    restriction_type :=
      if de.access_restriction && decide (0 ≤ restrictions_idx) then
        some (tile.access_restriction_types.getD restrictions_idx.toNat 0)
      else none
    has_time_restrictions := some (decide (0 ≤ restrictions_idx))
    use := if c.kEdgeUse then some de.use else none
    toll := if de.toll && c.kEdgeToll then some true else none
    unpaved := if de.unpaved && c.kEdgeUnpaved then some true else none
    tunnel := if de.tunnel && c.kEdgeTunnel then some true else none
    bridge := if de.bridge && c.kEdgeBridge then some true else none
    roundabout := if de.roundabout && c.kEdgeRoundabout then some true else none
    internal_intersection := if de.internal && c.kEdgeInternalIntersection then some true else none
    drive_on_right := if c.kEdgeDriveOnRight then some drive_on_right else none
    surface := if c.kEdgeSurface then some de.surface else none
    destination_only := if de.destonly && c.kEdgeDestinationOnly then some de.destonly else none
    truck_route := if de.truck_route && c.kEdgeTruckRoute then some true else none
    id := if c.kEdgeId then some edge_id else none
    way_id := if c.kEdgeWayId then some way_id else none }

/-- The through-location scan of CopyLocations (triplegbuilder.cc lines
246-261).  The path iterator is modelled as the remaining suffix of edge
ids; each through location contributes its candidate id set.  find_if over
the suffix is dropWhile on non-matching ids; the matched position becomes
the new scan start.  When find_if returns path_end the source immediately
reads pe->edgeid past the end of the range: the model returns none there. -/
def scanThroughs : List Nat → List (List Nat) → Option (List Nat)
  | sfx, [] => some sfx
  | sfx, ids :: rest =>
    match sfx.dropWhile (fun e => !(ids.contains e)) with
    | [] => none
    | e :: tl => scanThroughs (e :: tl) rest

/-- The precondition of the through scan: every through location has a
candidate edge on the path at or after the previously matched position. -/
def throughsMatch : List Nat → List (List Nat) → Bool
  | _, [] => true
  | sfx, ids :: rest =>
    sfx.any (fun e => ids.contains e) &&
      throughsMatch (sfx.dropWhile (fun e => !(ids.contains e))) rest

/-- Output admin record with controller-gated fields. -/
structure TripLeg_Admin where
  country_code : Option String
  country_text : Option String
  state_code : Option String
  state_text : Option String
deriving DecidableEq

/-- AssignAdmins (triplegbuilder.cc lines 84-113): when the admin category
is enabled, one admin record per interned descriptor, each field gated. -/
def AssignAdmins (c : AttributesController) (admin_info_list : List AdminInfo) :
    List TripLeg_Admin :=
  if c.kAdminCategory then
    admin_info_list.map (fun a =>
      ⟨if c.kAdminCountryCode then some a.country_iso else none,
       if c.kAdminCountryText then some a.country_text else none,
       if c.kAdminStateCode then some a.state_iso else none,
       if c.kAdminStateText then some a.state_text else none⟩)
  else []

/-- The shape-index slice of an output edge record, plus the loop's
edge_index counter. -/
structure EdgeRec where
  begin_shape_index : Nat
  end_shape_index : Nat
  edge_index : Nat
deriving DecidableEq

/-- Output node record: the edge hanging off the node (absent on the final
node) and the admin index. -/
structure NodeModel where
  edge : Option EdgeRec
  admin_index : Nat
deriving DecidableEq

/-- The slice of the output leg the claims below quantify over. -/
structure LegModel where
  node : List NodeModel
  admin : List TripLeg_Admin
deriving DecidableEq

/-- Environment of a Build invocation.  Geometry is floating point and
lives outside the analysed source (PointLL, trim_shape from midgard), so
the model carries per-step sizes: rawShapeLen i is edgeinfo.shape().size()
at step i, trimmedShapeLen i the size after trim_shape (modelled from the
spec: the trimmer yields at least two points), shapeInserts i the number of
synthetic vertices SetShapeAttributes inserts into the running shape at
step i.  edge_trimming i returns the (begin_info.trim, end_info.trim) pair
when the map has an entry for edge index i.  startAdmin i is the admin
descriptor at the start node of step i, lastAdmin the one at the final
node, and trivialEndTile the end-node tile lookup of the single-edge
branch (none models a missing tile). -/
structure BuildEnv where
  ctrl : AttributesController
  rawShapeLen : Nat → Nat
  trimmedShapeLen : Nat → Nat
  shapeInserts : Nat → Nat
  edge_trimming : Nat → Option (Bool × Bool)
  startAdmin : Nat → AdminInfo
  lastAdmin : AdminInfo
  trivialEndTile : Option AdminInfo

/-- Node admin assignment (triplegbuilder.cc lines 1497-1500 and
1896-1901): interning happens only when kNodeaAdminIndex is enabled;
otherwise the protobuf field keeps its default 0. -/
def adminStep (c : AttributesController) (a : AdminInfo) (s : AdminState) :
    Nat × AdminState :=
  if c.kNodeaAdminIndex then GetAdminIndex a s else (0, s)

/-- Number of points appended to the running shape by step i (lines
1708-1778).  In the trimming branch the first vertex is kept when the
(possibly forced) begin trim flag is set; otherwise the duplicated first
vertex is skipped.  Without a trimming entry the first edge keeps its
trimmed shape whole, the last edge skips the duplicate, and interior edges
skip the duplicate of the raw shape. -/
def stepAppendCount (env : BuildEnv) (n i : Nat) : Nat :=
  match env.edge_trimming i with
  | some (bt, _) => env.trimmedShapeLen i - (if bt || i == 0 then 0 else 1)
  | none =>
    if i == 0 then env.trimmedShapeLen i
    else if i == n - 1 then env.trimmedShapeLen i - 1
    else env.rawShapeLen i - 1

/-- begin_index of step i (lines 1700 and 1749-1751): 0 on the first edge,
the current last shape position otherwise, incremented when the trimming
entry marks a trimmed begin on a non-first edge. -/
def stepBeginIndex (env : BuildEnv) (i shapeSize : Nat) : Nat :=
  (if i == 0 then 0 else shapeSize - 1) +
    (match env.edge_trimming i with
     | some (bt, _) => if (bt || i == 0) && !(i == 0) then 1 else 0
     | none => 0)

/-- Size of the running shape after step i appended its points and
SetShapeAttributes inserted its synthetic vertices. -/
def stepNextSize (env : BuildEnv) (n i shapeSize : Nat) : Nat :=
  shapeSize + stepAppendCount env n i + env.shapeInserts i

/-- The edge record of step i: begin index taken before the append, end
index the last shape position after append and inserts (lines 1796-1803),
each controller-gated with protobuf default 0. -/
def mkEdgeRec (env : BuildEnv) (n i shapeSize : Nat) : EdgeRec :=
  { begin_shape_index :=
      if env.ctrl.kEdgeBeginShapeIndex then stepBeginIndex env i shapeSize else 0
    end_shape_index :=
      if env.ctrl.kEdgeEndShapeIndex then stepNextSize env n i shapeSize - 1 else 0
    edge_index := i }

/-- The main loop of Build (lines 1438-1892) over the remaining step
indices, threading the running shape size and the admin state, followed by
the final node (lines 1894-1910). -/
def loopGo (env : BuildEnv) (n : Nat) :
    List Nat → Nat → AdminState → List NodeModel × AdminState
  | [], _, s =>
    let r := adminStep env.ctrl env.lastAdmin s
    ([⟨none, r.1⟩], r.2)
  | i :: rest, shapeSize, s =>
    let r := adminStep env.ctrl (env.startAdmin i) s
    let tl := loopGo env n rest (stepNextSize env n i shapeSize) r.2
    (⟨some (mkEdgeRec env n i shapeSize), r.1⟩ :: tl.1, tl.2)

/-- The single-edge special case of Build (lines 1317-1421): one node
carrying the edge record (begin index 0, end index at the trimmed and
possibly extended shape's last position), one final node whose admin index
is 0 when the end-tile lookup fails and interned otherwise; the first node
never receives an admin index. -/
def buildTrivial (env : BuildEnv) : LegModel :=
  let shapeLen := env.trimmedShapeLen 0 + env.shapeInserts 0
  let er : EdgeRec :=
    { begin_shape_index := 0
      end_shape_index := if env.ctrl.kEdgeEndShapeIndex then shapeLen - 1 else 0
      edge_index := 0 }
  let r :=
    match env.trivialEndTile with
    | none => (0, emptyAdminState)
    | some a =>
      if env.ctrl.kNodeaAdminIndex then GetAdminIndex a emptyAdminState
      else (0, emptyAdminState)
  { node := [⟨some er, 0⟩, ⟨none, r.1⟩]
    admin := AssignAdmins env.ctrl r.2.list }

/-- TripLegBuilder::Build (lines 1215-1929), restricted to the modelled
leg slice: the single-edge branch for a one-step path, the main loop plus
final node otherwise, then AssignAdmins. -/
def Build (env : BuildEnv) (n : Nat) : LegModel :=
  if n = 1 then buildTrivial env
  else
    let r := loopGo env n (List.range n) 0 emptyAdminState
    { node := r.1, admin := AssignAdmins env.ctrl r.2.list }

/-- The sequence of edge records produced from step j for k steps starting
at the given shape size; mirror of the edge records loopGo emits. -/
def edgesGo (env : BuildEnv) (n : Nat) : Nat → Nat → Nat → List EdgeRec
  | _, 0, _ => []
  | j, k + 1, shapeSize =>
    mkEdgeRec env n j shapeSize :: edgesGo env n (j + 1) k (stepNextSize env n j shapeSize)

/-- Whether the edge_trimming map marks a trimmed begin at edge index i. -/
def trimmedBeginAt (env : BuildEnv) (i : Nat) : Bool :=
  match env.edge_trimming i with
  | some (bt, _) => bt
  | none => false

/-- Boundedness of the interning map: every stored index is a valid list
position. -/
def mapBounded (s : AdminState) : Prop :=
  ∀ p ∈ s.map, p.2 < s.list.length

/-- Witness environment: two raw points per edge, three after trimming, no
synthetic inserts, no trimming map, all attributes off. -/
def envC1 : BuildEnv :=
  { ctrl := allOffController
    rawShapeLen := fun _ => 4
    trimmedShapeLen := fun _ => 3
    shapeInserts := fun _ => 0
    edge_trimming := fun _ => none
    startAdmin := fun _ => ⟨"US", "United States", "CO", "Colorado"⟩
    lastAdmin := ⟨"US", "United States", "CO", "Colorado"⟩
    trivialEndTile := some ⟨"US", "United States", "CO", "Colorado"⟩ }

/-- Witness environment for C4: shape indices enabled and a trimmed begin
marked at edge index 1. -/
def envC4 : BuildEnv :=
  { ctrl := { allOffController with kEdgeBeginShapeIndex := true, kEdgeEndShapeIndex := true }
    rawShapeLen := fun _ => 4
    trimmedShapeLen := fun _ => 3
    shapeInserts := fun _ => 0
    edge_trimming := fun i => if i == 1 then some (true, true) else none
    startAdmin := fun _ => ⟨"US", "United States", "CO", "Colorado"⟩
    lastAdmin := ⟨"US", "United States", "CO", "Colorado"⟩
    trivialEndTile := none }

/-- Environment exhibiting the C7 counterexample: a single-step path whose
end-tile lookup fails, with node admin indices and the admin category
enabled. -/
def envC7 : BuildEnv :=
  { ctrl := { allOffController with kNodeaAdminIndex := true, kAdminCategory := true }
    rawShapeLen := fun _ => 4
    trimmedShapeLen := fun _ => 3
    shapeInserts := fun _ => 0
    edge_trimming := fun _ => none
    startAdmin := fun _ => ⟨"US", "United States", "CO", "Colorado"⟩
    lastAdmin := ⟨"US", "United States", "CO", "Colorado"⟩
    trivialEndTile := none }

/-- Witness environment for the amended C7: same as the counterexample but
with the end tile present. -/
def envC7w : BuildEnv :=
  { ctrl := { allOffController with kNodeaAdminIndex := true, kAdminCategory := true }
    rawShapeLen := fun _ => 4
    trimmedShapeLen := fun _ => 3
    shapeInserts := fun _ => 0
    edge_trimming := fun _ => none
    startAdmin := fun _ => ⟨"US", "United States", "CO", "Colorado"⟩
    lastAdmin := ⟨"US", "United States", "CO", "Colorado"⟩
    trivialEndTile := some ⟨"US", "United States", "CO", "Colorado"⟩ }

/-- Seconds/cost pair (sif::Cost). -/
structure CostPair where
  secs : ℚ
  cost : ℚ
deriving DecidableEq

/-- One recost entry on a node (TripLeg PathCost): elapsed and transition
cost, each unset until written. -/
structure PathCost where
  elapsed_cost : Option CostPair
  transition_cost : Option CostPair
deriving DecidableEq

/-- The null entry added by the catch handler: a fresh default message. -/
def nullRecost : PathCost := ⟨none, none⟩

/-- A label delivered by recost_forward to the label callback: the
transition cost at the node and the elapsed cost at the end of the edge. -/
structure RecostLabel where
  transition : CostPair
  cost : CostPair
deriving DecidableEq

/-- Write the transition cost of the last recost entry of a node (the
rbegin() writes of the label callback, lines 1169-1172); no-op on an empty
list, which the source never reaches because the first node is seeded. -/
def setTransLast (l : List PathCost) (t : CostPair) : List PathCost :=
  match l.getLast? with
  | none => l
  | some p => l.dropLast ++ [{ p with transition_cost := some t }]

/-- The label callback applied to a list of labels (lines 1167-1177): each
label writes the transition cost on the current node's last entry, steps to
the next node and appends an entry carrying the label's elapsed cost. -/
def applyLabelsGo : List RecostLabel → List (List PathCost) → List (List PathCost)
  | _, [] => []
  | [], ns => ns
  | lab :: ls, cur :: rest =>
    setTransLast cur lab.transition ::
      (match rest with
       | [] => []
       | nxt :: rest2 =>
         applyLabelsGo ls ((nxt ++ [⟨some lab.cost, none⟩]) :: rest2))

/-- Write the transition cost of the last recost entry of the node at the
given position. -/
def setTransAt : List (List PathCost) → Nat → CostPair → List (List PathCost)
  | [], _, _ => []
  | nd :: rest, 0, t => setTransLast nd t :: rest
  | nd :: rest, i + 1, t => nd :: setTransAt rest i t

/-- Outcome of one recost_forward replay, a collaborator outside the
analysed source: on success it delivers one label per edge; on a throw the
labels delivered before the exception. -/
inductive RecostOutcome where
  | success (labels : List RecostLabel)
  | thrown (labels : List RecostLabel)
deriving DecidableEq

/-- One pass of AccumulateRecostingInfoForward (lines 1180-1207) for one
requested costing: seed the first node with zero elapsed cost, replay the
labels, then either zero the final transition cost (success, lines
1193-1195) or pad: every node that reached the first node's entry count
drops its partial entry, and every node gains a null entry (catch handler,
lines 1198-1205). -/
def accumulateRecostingOnce (nodes : List (List PathCost)) (oc : RecostOutcome) :
    List (List PathCost) :=
  match nodes with
  | [] => []
  | n0 :: rest =>
    let seeded := (n0 ++ [⟨some ⟨0, 0⟩, none⟩]) :: rest
    match oc with
    | RecostOutcome.success labels =>
      setTransAt (applyLabelsGo labels seeded) labels.length ⟨0, 0⟩
    | RecostOutcome.thrown labels =>
      let stepped := applyLabelsGo labels seeded
      let should_have := (stepped.headD []).length
      stepped.map (fun nd =>
        if nd.length = should_have then nd.dropLast ++ [nullRecost] else nd ++ [nullRecost])

/-- AccumulateRecostingInfoForward over the requested costings (the loop of
line 1181), each replay outcome supplied by the recost collaborator. -/
def AccumulateRecostingInfoForward (ocs : List RecostOutcome)
    (nodes : List (List PathCost)) : List (List PathCost) :=
  ocs.foldl accumulateRecostingOnce nodes

/-- Well-formedness of a replay outcome against a leg: a successful replay
delivers exactly one label per edge (modelled from the spec: the edge
callback yields successive edge ids from leg nodes and the label callback
receives per-step labels). -/
def WFOutcome (nNodes : Nat) : RecostOutcome → Bool
  | RecostOutcome.success labels => labels.length == nNodes - 1
  | RecostOutcome.thrown _ => true

theorem adminConsistent_empty : adminConsistent emptyAdminState := by
  constructor
  · exact List.nodup_nil
  · intro a
    simp [lookupAdmin, emptyAdminState]

theorem lookupAdmin_cons (a b : AdminInfo) (i : Nat) (m : List (AdminInfo × Nat)) :
    lookupAdmin ((b, i) :: m) a = if b = a then some i else lookupAdmin m a := by
  by_cases h : b = a <;> simp [lookupAdmin, List.find?, h]

/-- Interning a new descriptor preserves the consistency invariant. -/
theorem adminConsistent_step (a : AdminInfo) (s : AdminState) (h : adminConsistent s) :
    adminConsistent (GetAdminIndex a s).2 := by
  obtain ⟨hnd, hmap⟩ := h
  unfold GetAdminIndex
  rcases hl : lookupAdmin s.map a with _ | i
  · have hna : a ∉ s.list := by
      intro hmem
      rw [hmap a, if_pos hmem] at hl
      exact Option.noConfusion hl
    refine ⟨?_, ?_⟩
    · simpa [List.nodup_append] using ⟨hnd, hna⟩
    · intro b
      rw [lookupAdmin_cons]
      by_cases hba : a = b
      · subst hba
        rw [if_pos rfl, if_pos (by simp)]
        have : s.list.indexOf a = s.list.length := List.indexOf_eq_length.mpr hna
        rw [List.indexOf_append_of_not_mem hna]
        simp [List.indexOf_cons_self]
      · rw [if_neg hba, hmap b]
        by_cases hbl : b ∈ s.list
        · rw [if_pos hbl, if_pos (by simp [hbl])]
          rw [List.indexOf_append_of_mem hbl]
        · rw [if_neg hbl, if_neg (by simp [hbl]; intro h; exact hba h.symm)]
  · exact ⟨hnd, hmap⟩

/-- Under the invariant, a descriptor not yet referenced fails the map lookup. -/
theorem lookupAdmin_eq_none_of_not_mem (a : AdminInfo) (s : AdminState)
    (h : adminConsistent s) (hna : a ∉ s.list) : lookupAdmin s.map a = none := by
  rw [h.2 a, if_neg hna]

/-- Under the invariant, a referenced descriptor looks up to its list position. -/
theorem lookupAdmin_eq_indexOf_of_mem (a : AdminInfo) (s : AdminState)
    (h : adminConsistent s) (hma : a ∈ s.list) :
    lookupAdmin s.map a = some (s.list.indexOf a) := by
  rw [h.2 a, if_pos hma]

/-- firstRefs only depends on membership in the seen set. -/
theorem firstRefs_congr (seen1 seen2 : List AdminInfo)
    (h : ∀ x, x ∈ seen1 ↔ x ∈ seen2) :
    ∀ as, firstRefs seen1 as = firstRefs seen2 as := by
  intro as
  induction as generalizing seen1 seen2 with
  | nil => rfl
  | cons a as ih =>
    by_cases hm : a ∈ seen1
    · rw [firstRefs, firstRefs, if_pos hm, if_pos ((h a).mp hm)]
      exact ih seen1 seen2 h
    · rw [firstRefs, firstRefs, if_neg hm, if_neg (fun hc => hm ((h a).mpr hc))]
      refine congrArg _ (ih _ _ ?_)
      intro x
      simp only [List.mem_cons]
      exact or_congr Iff.rfl (h x)

/-- Running the interner appends exactly the first references, in order. -/
theorem runAdmins_list (as : List AdminInfo) (s : AdminState) (h : adminConsistent s) :
    (runAdmins as s).2.list = s.list ++ firstRefs s.list as := by
  induction as generalizing s with
  | nil => simp [runAdmins, firstRefs]
  | cons a as ih =>
    by_cases hm : a ∈ s.list
    · have hlk := lookupAdmin_eq_indexOf_of_mem a s h hm
      rw [runAdmins]
      simp only [GetAdminIndex, hlk]
      rw [ih s h, firstRefs, if_pos hm]
    · have hlk := lookupAdmin_eq_none_of_not_mem a s h hm
      rw [runAdmins]
      simp only [GetAdminIndex, hlk]
      have hstep : adminConsistent (⟨(a, s.list.length) :: s.map, s.list ++ [a]⟩ : AdminState) := by
        have := adminConsistent_step a s h
        rwa [GetAdminIndex, hlk] at this
      rw [ih _ hstep]
      rw [firstRefs, if_neg hm]
      simp only [List.append_assoc, List.singleton_append]
      refine congrArg _ (congrArg _ ?_)
      refine firstRefs_congr _ _ ?_ as
      intro x
      simp [List.mem_append, or_comm]

/-- C5: Admin interning is idempotent and order-preserving.  For any
consistent state, the first reference to a descriptor returns the current
list length and appends the descriptor; any later reference returns the
stored index without changing the state, and referencing a descriptor twice
in a row yields the same index.  Starting from the empty state, the final
list equals the first-reference order of the request sequence. -/
theorem getAdminIndex_intern_spec (s : AdminState) (a : AdminInfo)
    (h : adminConsistent s) :
    ((a ∉ s.list →
        (GetAdminIndex a s).1 = s.list.length ∧
        (GetAdminIndex a s).2.list = s.list ++ [a]) ∧
     (a ∈ s.list →
        (GetAdminIndex a s).1 = s.list.indexOf a ∧
        (GetAdminIndex a s).2 = s) ∧
     ((GetAdminIndex a ((GetAdminIndex a s).2)).1 = (GetAdminIndex a s).1 ∧
      (GetAdminIndex a ((GetAdminIndex a s).2)).2.list = (GetAdminIndex a s).2.list)) ∧
    ∀ as : List AdminInfo, (runAdmins as emptyAdminState).2.list = firstRefs [] as := by
  refine ⟨⟨?_, ?_, ?_⟩, ?_⟩
  · intro hna
    rw [GetAdminIndex, lookupAdmin_eq_none_of_not_mem a s h hna]
    exact ⟨rfl, rfl⟩
  · intro hma
    rw [GetAdminIndex, lookupAdmin_eq_indexOf_of_mem a s h hma]
    exact ⟨rfl, rfl⟩
  · by_cases hma : a ∈ s.list
    · have h1 : GetAdminIndex a s = (s.list.indexOf a, s) := by
        rw [GetAdminIndex, lookupAdmin_eq_indexOf_of_mem a s h hma]
      rw [h1]
      have h2 : GetAdminIndex a s = (s.list.indexOf a, s) := h1
      rw [h2]
      exact ⟨rfl, rfl⟩
    · have hlk := lookupAdmin_eq_none_of_not_mem a s h hma
      have h1 : GetAdminIndex a s =
          (s.list.length, ⟨(a, s.list.length) :: s.map, s.list ++ [a]⟩) := by
        rw [GetAdminIndex, hlk]
      have hstep := adminConsistent_step a s h
      rw [h1] at hstep
      rw [h1]
      have hmem2 : a ∈ (⟨(a, s.list.length) :: s.map, s.list ++ [a]⟩ : AdminState).list := by
        simp
      have hidx : ((⟨(a, s.list.length) :: s.map, s.list ++ [a]⟩ : AdminState)).list.indexOf a
          = s.list.length := by
        show (s.list ++ [a]).indexOf a = s.list.length
        rw [List.indexOf_append_of_not_mem hma]
        simp [List.indexOf_cons_self]
      have h3 := lookupAdmin_eq_indexOf_of_mem a _ hstep hmem2
      have h4 : GetAdminIndex a (⟨(a, s.list.length) :: s.map, s.list ++ [a]⟩ : AdminState) =
          (s.list.length, ⟨(a, s.list.length) :: s.map, s.list ++ [a]⟩) := by
        rw [GetAdminIndex, h3, hidx]
      rw [h4]
      exact ⟨rfl, rfl⟩
  · intro as
    have := runAdmins_list as emptyAdminState adminConsistent_empty
    simpa [emptyAdminState] using this

/-- Witness for C5 at a concrete state and descriptor. -/
theorem getAdminIndex_intern_spec_witness :
    adminConsistent emptyAdminState ∧
    (GetAdminIndex ⟨"US", "United States", "CO", "Colorado"⟩ emptyAdminState).1 = 0 ∧
    (runAdmins [⟨"US", "United States", "CO", "Colorado"⟩,
                ⟨"US", "United States", "CO", "Colorado"⟩] emptyAdminState).2.list =
      firstRefs [] [⟨"US", "United States", "CO", "Colorado"⟩,
                    ⟨"US", "United States", "CO", "Colorado"⟩] := by
  refine ⟨adminConsistent_empty, ?_, ?_⟩
  · have h := (getAdminIndex_intern_spec emptyAdminState
      ⟨"US", "United States", "CO", "Colorado"⟩ adminConsistent_empty).1.1
      (by simp [emptyAdminState])
    simpa [emptyAdminState] using h.1
  · exact (getAdminIndex_intern_spec emptyAdminState
      ⟨"US", "United States", "CO", "Colorado"⟩ adminConsistent_empty).2 _

/-- C8: Pruning a location against the designated path edge has exactly two
outcomes: if no candidate carries the designated id the list is cleared, and
otherwise exactly the first matching candidate survives, at position 0. -/
theorem removePathEdges_outcomes (l : List PathEdge) (edge_id : Nat) :
    ((∀ e ∈ l, e.graph_id ≠ edge_id) ∧ RemovePathEdges l edge_id = []) ∨
    (∃ e, e ∈ l ∧ e.graph_id = edge_id ∧ RemovePathEdges l edge_id = [e]) := by
  rcases hf : l.find? (fun e => e.graph_id == edge_id) with _ | e
  · left
    refine ⟨?_, by rw [RemovePathEdges, hf]⟩
    intro e he heq
    have := List.find?_eq_none.mp hf e he
    simp [heq] at this
  · right
    have hmem : e ∈ l := List.mem_of_find?_eq_some hf
    have hpred : e.graph_id = edge_id := by
      have := List.find?_some hf
      simpa using this
    refine ⟨e, hmem, hpred, ?_⟩
    rw [RemovePathEdges, hf]
    show (if 1 < l.length then [e] else l) = [e]
    by_cases hlen : 1 < l.length
    · rw [if_pos hlen]
    · rw [if_neg hlen]
      have : l.length = 1 := by
        have h0 : 0 < l.length := List.length_pos.mpr (List.ne_nil_of_mem hmem)
        omega
      match l, this with
      | [x], _ =>
        have : e = x := by simpa using hmem
        rw [this]

theorem trafficSpeedTuples_speed (speed : ℚ) (cut : Bool) (b1 b2 s3 ur : Nat) :
    ∀ p ∈ trafficSpeedTuples speed cut b1 b2 s3 ur, p.2 = speed := by
  intro p hp
  unfold trafficSpeedTuples at hp
  split_ifs at hp <;> simp at hp <;>
    first
    | (rcases hp with h | h | h <;> simp [h])
    | (rcases hp with h | h <;> simp [h])
    | simp [hp]

/-- C2: the ungated attribute writes of AddTripEdge, evaluated at a failing
input.  With every controller flag disabled and a directed edge carrying
turn lanes and lane connectivity, the output edge still receives turn-lane
records and lane-connectivity records, and has_time_restrictions is written;
a correctly gated attribute such as road_class stays unset.  This
contradicts the contract that absent controller flags leave fields unset. -/
theorem addTripEdge_writes_ungated_attributes :
    (AddTripEdge allOffController 11 22 TravelMode.kDrive
      ⟨true, true, false, true, 1, 1, 0, 0, true, false, false, false, false,
       false, false, false, 0⟩
      ⟨[3], [7], [], []⟩ true (-1)).turn_lanes = [3] ∧
    (AddTripEdge allOffController 11 22 TravelMode.kDrive
      ⟨true, true, false, true, 1, 1, 0, 0, true, false, false, false, false,
       false, false, false, 0⟩
      ⟨[3], [7], [], []⟩ true (-1)).lane_connectivity = [7] ∧
    (AddTripEdge allOffController 11 22 TravelMode.kDrive
      ⟨true, true, false, true, 1, 1, 0, 0, true, false, false, false, false,
       false, false, false, 0⟩
      ⟨[3], [7], [], []⟩ true (-1)).has_time_restrictions = some false ∧
    (AddTripEdge allOffController 11 22 TravelMode.kDrive
      ⟨true, true, false, true, 1, 1, 0, 0, true, false, false, false, false,
       false, false, false, 0⟩
      ⟨[3], [7], [], []⟩ true (-1)).road_class = none ∧
    (AddTripEdge allOffController 11 22 TravelMode.kDrive
      ⟨true, true, false, true, 1, 1, 0, 0, true, false, false, false, false,
       false, false, false, 0⟩
      ⟨[3], [7], [], []⟩ true (-1)).toll = none := by
  refine ⟨rfl, rfl, rfl, rfl, rfl⟩

/-- C6: The traversability emitted by the edge assembler is derived from the
forward and reverse access masks under the mode-selected access mask, and
traversing the edge against its nominal direction (forward flag false)
swaps Forward and Backward while fixing Both and None. -/
theorem traversability_flip_swaps (mode : TravelMode) (forwardaccess reverseaccess : Nat) :
    (edgeTraversability mode false forwardaccess reverseaccess =
      swapTraversability (edgeTraversability mode true forwardaccess reverseaccess)) ∧
    (∀ b : Bool, edgeTraversability mode b forwardaccess reverseaccess =
      traversabilityFromAccess b forwardaccess reverseaccess (accessMaskForMode mode)) ∧
    (∀ (c : AttributesController) (eid wid : Nat) (de : DirectedEdge)
        (tile : GraphTileData) (dor : Bool) (ri : Int),
      (AddTripEdge c eid wid mode de tile dor ri).traversability =
        if c.kEdgeTraversability then
          some (edgeTraversability mode de.forward de.forwardaccess de.reverseaccess)
        else none) ∧
    swapTraversability Traversability.kBoth = Traversability.kBoth ∧
    swapTraversability Traversability.kNone = Traversability.kNone := by
  refine ⟨?_, fun _ => rfl, fun _ _ _ _ _ _ _ => rfl, rfl, rfl⟩
  by_cases hf : forwardaccess &&& accessMaskForMode mode ≠ 0 <;>
    by_cases hr : reverseaccess &&& accessMaskForMode mode ≠ 0 <;>
      simp [edgeTraversability, traversabilityFromAccess, swapTraversability, hf, hr]

/-- C9: In the shape-attribute cutter, for an edge with positive edge
seconds and src_pct below tgt_pct, every tuple of the produced percent/speed
list carries the baseline speed length * (tgt_pct - src_pct) / edge_seconds
(breakpoints position cuts, never change the value), and the sentinel
(tgt_pct, speed) is appended exactly when the traffic tuple list is empty or
its last breakpoint lies below tgt_pct. -/
theorem setShapeAttributesSpeeds_spec (length src_pct tgt_pct edge_seconds : ℚ)
    (cut : Bool) (b1 b2 s3 ur : Nat)
    (hsecs : 0 < edge_seconds) (hpct : src_pct < tgt_pct) :
    (∀ p ∈ SetShapeAttributesSpeeds length src_pct tgt_pct edge_seconds cut b1 b2 s3 ur,
       p.2 = length * (tgt_pct - src_pct) / edge_seconds) ∧
    ((trafficSpeedTuples (length * (tgt_pct - src_pct) / edge_seconds) cut b1 b2 s3 ur = [] ∨
      (∃ q, (trafficSpeedTuples (length * (tgt_pct - src_pct) / edge_seconds)
              cut b1 b2 s3 ur).getLast? = some q ∧ q.1 < tgt_pct)) →
      SetShapeAttributesSpeeds length src_pct tgt_pct edge_seconds cut b1 b2 s3 ur =
        trafficSpeedTuples (length * (tgt_pct - src_pct) / edge_seconds) cut b1 b2 s3 ur ++
          [(tgt_pct, length * (tgt_pct - src_pct) / edge_seconds)]) ∧
    (∀ q, (trafficSpeedTuples (length * (tgt_pct - src_pct) / edge_seconds)
            cut b1 b2 s3 ur).getLast? = some q → ¬ q.1 < tgt_pct →
      SetShapeAttributesSpeeds length src_pct tgt_pct edge_seconds cut b1 b2 s3 ur =
        trafficSpeedTuples (length * (tgt_pct - src_pct) / edge_seconds) cut b1 b2 s3 ur) := by
  refine ⟨?_, ?_, ?_⟩
  · intro p hp
    rcases hl : (trafficSpeedTuples (length * (tgt_pct - src_pct) / edge_seconds)
        cut b1 b2 s3 ur).getLast? with _ | q
    · simp only [SetShapeAttributesSpeeds, hl] at hp
      simp only [List.mem_append, List.mem_singleton] at hp
      rcases hp with hp | hp
      · exact trafficSpeedTuples_speed _ _ _ _ _ _ p hp
      · rw [hp]
    · simp only [SetShapeAttributesSpeeds, hl] at hp
      by_cases hq : q.1 < tgt_pct
      · rw [if_pos hq] at hp
        simp only [List.mem_append, List.mem_singleton] at hp
        rcases hp with hp | hp
        · exact trafficSpeedTuples_speed _ _ _ _ _ _ p hp
        · rw [hp]
      · rw [if_neg hq] at hp
        exact trafficSpeedTuples_speed _ _ _ _ _ _ p hp
  · intro hcase
    rcases hcase with hnil | ⟨q, hq, hlt⟩
    · have hl : (trafficSpeedTuples (length * (tgt_pct - src_pct) / edge_seconds)
          cut b1 b2 s3 ur).getLast? = none := by
        rw [hnil]
        rfl
      simp only [SetShapeAttributesSpeeds, hl]
    · simp only [SetShapeAttributesSpeeds, hq, if_pos hlt]
  · intro q hq hnlt
    simp only [SetShapeAttributesSpeeds, hq, if_neg hnlt]

/-- Witness for C9 at concrete data: length 100, src 0, tgt 1, 10 edge
seconds, one traffic breakpoint at byte 128. -/
theorem setShapeAttributesSpeeds_spec_witness :
    (0 : ℚ) < 10 ∧ (0 : ℚ) < 1 ∧
    SetShapeAttributesSpeeds 100 0 1 10 true 128 0 0 7 =
      [(128 / 255, 10), (1, 10)] := by
  refine ⟨by norm_num, by norm_num, ?_⟩
  have h := (setShapeAttributesSpeeds_spec 100 0 1 10 true 128 0 0 7
      (by norm_num) (by norm_num)).2.1
  have ht : trafficSpeedTuples (100 * (1 - 0) / 10) true 128 0 0 7 =
      [((128 : ℚ) / 255, 10)] := by
    norm_num [trafficSpeedTuples]
  rw [h (Or.inr ⟨(128 / 255, 10), by rw [ht]; norm_num, by norm_num⟩), ht]
  norm_num

/-- C10: the through-location dereference of CopyLocations is unchecked.
Whenever every through location has a candidate edge on the path at or
after the previously matched position, the scan stays in bounds; the
precondition is necessary, because a through location with candidate set
containing only 7 against the one-edge path 5 drives the read past the end
of the path range. -/
theorem copyLocations_through_scan_bounds :
    (∀ (sfx : List Nat) (throughs : List (List Nat)),
      throughsMatch sfx throughs = true → (scanThroughs sfx throughs).isSome = true) ∧
    scanThroughs [5] [[7]] = none := by
  refine ⟨?_, by decide⟩
  intro sfx throughs
  induction throughs generalizing sfx with
  | nil => intro _; rfl
  | cons ids rest ih =>
    intro h
    rw [throughsMatch, Bool.and_eq_true] at h
    obtain ⟨hany, hrest⟩ := h
    rcases hd : sfx.dropWhile (fun e => !(ids.contains e)) with _ | ⟨e, tl⟩
    · exfalso
      have hall := List.dropWhile_eq_nil_iff.mp hd
      obtain ⟨x, hx, hpx⟩ := List.any_eq_true.mp hany
      have := hall x hx
      simp only [Bool.not_eq_true'] at this
      rw [this] at hpx
      exact Bool.noConfusion hpx
    · rw [scanThroughs, hd]
      rw [hd] at hrest
      exact ih (e :: tl) hrest

/-- Witness for C10: the in-bounds case at a concrete path and through set. -/
theorem copyLocations_through_scan_bounds_witness :
    throughsMatch [3, 5] [[5]] = true ∧ (scanThroughs [3, 5] [[5]]).isSome = true :=
  ⟨by decide, copyLocations_through_scan_bounds.1 [3, 5] [[5]] (by decide)⟩

theorem loopGo_length (env : BuildEnv) (n : Nat) :
    ∀ (idxs : List Nat) (shapeSize : Nat) (s : AdminState),
      (loopGo env n idxs shapeSize s).1.length = idxs.length + 1 := by
  intro idxs
  induction idxs with
  | nil => intro shapeSize s; rfl
  | cons i rest ih =>
    intro shapeSize s
    simp only [loopGo, List.length_cons]
    rw [ih]

theorem loopGo_edges (env : BuildEnv) (n : Nat) :
    ∀ (k j shapeSize : Nat) (s : AdminState),
      ((loopGo env n (List.range' j k) shapeSize s).1.filterMap NodeModel.edge) =
        edgesGo env n j k shapeSize := by
  intro k
  induction k with
  | zero => intro j shapeSize s; rfl
  | succ k ih =>
    intro j shapeSize s
    rw [List.range'_succ]
    simp only [loopGo, List.filterMap_cons, edgesGo]
    rw [ih]

theorem edgesGo_length (env : BuildEnv) (n : Nat) :
    ∀ (k j shapeSize : Nat), (edgesGo env n j k shapeSize).length = k := by
  intro k
  induction k with
  | zero => intro j shapeSize; rfl
  | succ k ih =>
    intro j shapeSize
    simp only [edgesGo, List.length_cons]
    rw [ih]

/-- C1: For every successful Build over a non-empty path, the node count is
the edge count plus one and the edge count equals the number of path steps;
a single-step path yields exactly 1 edge record and 2 node records. -/
theorem build_leg_counts (env : BuildEnv) (n : Nat) (h : 1 ≤ n) :
    (Build env n).node.length = ((Build env n).node.filterMap NodeModel.edge).length + 1 ∧
    ((Build env n).node.filterMap NodeModel.edge).length = n ∧
    (n = 1 → ((Build env n).node.filterMap NodeModel.edge).length = 1 ∧
      (Build env n).node.length = 2) := by
  by_cases h1 : n = 1
  · subst h1
    refine ⟨?_, ?_, fun _ => ⟨?_, ?_⟩⟩ <;> simp [Build, buildTrivial]
  · have hnode : (Build env n).node = (loopGo env n (List.range n) 0 emptyAdminState).1 := by
      simp [Build, h1]
    have hlen : (Build env n).node.length = n + 1 := by
      rw [hnode, loopGo_length]
      simp
    have hedges : ((Build env n).node.filterMap NodeModel.edge).length = n := by
      rw [hnode, List.range_eq_range', loopGo_edges, edgesGo_length]
    exact ⟨by rw [hlen, hedges], hedges, fun hc => absurd hc h1⟩

/-- Witness for C1 at a three-step path. -/
theorem build_leg_counts_witness :
    1 ≤ 3 ∧ (Build envC1 3).node.length =
      ((Build envC1 3).node.filterMap NodeModel.edge).length + 1 ∧
    ((Build envC1 3).node.filterMap NodeModel.edge).length = 3 :=
  ⟨by decide, (build_leg_counts envC1 3 (by decide)).1,
    (build_leg_counts envC1 3 (by decide)).2.1⟩

/-- Adjacent edge records agree on the shared shape position, except for a
plus-one shift when the trimming map marks a trimmed begin on the later
edge. -/
theorem edgesGo_adjacent (env : BuildEnv) (n : Nat)
    (hb : env.ctrl.kEdgeBeginShapeIndex = true)
    (he : env.ctrl.kEdgeEndShapeIndex = true) :
    ∀ (k j shapeSize m : Nat) (e1 e2 : EdgeRec),
      (edgesGo env n j k shapeSize)[m]? = some e1 →
      (edgesGo env n j k shapeSize)[m + 1]? = some e2 →
      e2.begin_shape_index =
        e1.end_shape_index + (if trimmedBeginAt env (j + m + 1) then 1 else 0) := by
  intro k
  induction k with
  | zero =>
    intro j shapeSize m e1 e2 h1 _
    simp [edgesGo] at h1
  | succ k ih =>
    intro j shapeSize m e1 e2 h1 h2
    rcases m with _ | m
    · rw [edgesGo, List.getElem?_cons_zero] at h1
      rw [edgesGo, List.getElem?_cons_succ] at h2
      rcases k with _ | k
      · simp [edgesGo] at h2
      · rw [edgesGo, List.getElem?_cons_zero] at h2
        have he1 : e1 = mkEdgeRec env n j shapeSize := by
          exact (Option.some_inj.mp h1).symm
        have he2 : e2 = mkEdgeRec env n (j + 1) (stepNextSize env n j shapeSize) := by
          exact (Option.some_inj.mp h2).symm
        rw [he1, he2]
        rcases htr : env.edge_trimming (j + 1) with _ | ⟨bt, et⟩
        · simp [mkEdgeRec, hb, he, stepBeginIndex, trimmedBeginAt, htr]
        · rcases bt with _ | _ <;>
            simp [mkEdgeRec, hb, he, stepBeginIndex, trimmedBeginAt, htr]
    · rw [edgesGo, List.getElem?_cons_succ] at h1
      rw [edgesGo, List.getElem?_cons_succ] at h2
      have harith : j + (m + 1) + 1 = (j + 1) + m + 1 := by omega
      rw [harith]
      exact ih (j + 1) (stepNextSize env n j shapeSize) m e1 e2 h1 h2

/-- C4: With shape indices enabled, consecutive edge records share the
shape position — edge[i].end_shape_index equals edge[i+1].begin_shape_index
— except when the edge_trimming map marks a trimmed begin at edge i+1, in
which case the later begin index is the earlier end index plus one. -/
theorem shape_index_contiguity (env : BuildEnv) (n : Nat) (h2 : 2 ≤ n)
    (hb : env.ctrl.kEdgeBeginShapeIndex = true)
    (he : env.ctrl.kEdgeEndShapeIndex = true) :
    ∀ (m : Nat) (e1 e2 : EdgeRec),
      ((Build env n).node.filterMap NodeModel.edge)[m]? = some e1 →
      ((Build env n).node.filterMap NodeModel.edge)[m + 1]? = some e2 →
      (trimmedBeginAt env (m + 1) = false →
        e2.begin_shape_index = e1.end_shape_index) ∧
      (trimmedBeginAt env (m + 1) = true →
        e2.begin_shape_index = e1.end_shape_index + 1) := by
  intro m e1 e2 h1 h2e
  have hne : n ≠ 1 := by omega
  have hedges : (Build env n).node.filterMap NodeModel.edge = edgesGo env n 0 n 0 := by
    simp only [Build, if_neg hne]
    rw [List.range_eq_range', loopGo_edges]
  rw [hedges] at h1 h2e
  have hadj := edgesGo_adjacent env n hb he n 0 0 m e1 e2 h1 h2e
  rw [Nat.zero_add] at hadj
  constructor
  · intro hfalse
    rw [hfalse] at hadj
    simpa using hadj
  · intro htrue
    rw [htrue] at hadj
    simpa using hadj

/-- Witness for C4: on a two-step path with a trimmed begin at edge 1, the
second begin index is the first end index plus one. -/
theorem shape_index_contiguity_witness :
    ((Build envC4 2).node.filterMap NodeModel.edge)[0]? = some ⟨0, 2, 0⟩ ∧
    ((Build envC4 2).node.filterMap NodeModel.edge)[1]? = some ⟨3, 5, 1⟩ ∧
    trimmedBeginAt envC4 1 = true ∧
    (3 : Nat) = 2 + 1 := by
  refine ⟨by decide, by decide, by decide, ?_⟩
  have h := (shape_index_contiguity envC4 2 (by decide) (by decide) (by decide)
      0 ⟨0, 2, 0⟩ ⟨3, 5, 1⟩ (by decide) (by decide)).2 (by decide)
  simpa using h

/-- GetAdminIndex keeps the map bounded, never shrinks the list, and
returns an index below the new list length. -/
theorem getAdminIndex_bound (a : AdminInfo) (s : AdminState) (h : mapBounded s) :
    (GetAdminIndex a s).1 < (GetAdminIndex a s).2.list.length ∧
    mapBounded (GetAdminIndex a s).2 ∧
    s.list.length ≤ (GetAdminIndex a s).2.list.length := by
  rcases hl : lookupAdmin s.map a with _ | i
  · rw [GetAdminIndex, hl]
    refine ⟨by simp, ?_, by simp⟩
    intro p hp
    simp only [List.mem_cons] at hp
    rcases hp with hp | hp
    · rw [hp]
      simp
    · have := h p hp
      simp only [List.length_append, List.length_singleton]
      omega
  · rw [GetAdminIndex, hl]
    refine ⟨?_, h, le_refl _⟩
    obtain ⟨p, hfind⟩ := Option.map_eq_some'.mp hl
    exact hfind.2 ▸ h p (List.mem_of_find?_eq_some hfind.1)

/-- Along the main loop every emitted admin index is a valid position in
the final interned list. -/
theorem loopGo_admin_bound (env : BuildEnv) (n : Nat)
    (hflag : env.ctrl.kNodeaAdminIndex = true) :
    ∀ (idxs : List Nat) (shapeSize : Nat) (s : AdminState), mapBounded s →
      (∀ nd ∈ (loopGo env n idxs shapeSize s).1,
        nd.admin_index < (loopGo env n idxs shapeSize s).2.list.length) ∧
      mapBounded (loopGo env n idxs shapeSize s).2 ∧
      s.list.length ≤ (loopGo env n idxs shapeSize s).2.list.length := by
  intro idxs
  induction idxs with
  | nil =>
    intro shapeSize s hs
    have hb := getAdminIndex_bound env.lastAdmin s hs
    simp only [loopGo, adminStep, hflag, if_true]
    refine ⟨?_, hb.2.1, hb.2.2⟩
    intro nd hnd
    simp only [List.mem_singleton] at hnd
    rw [hnd]
    exact hb.1
  | cons i rest ih =>
    intro shapeSize s hs
    have hb := getAdminIndex_bound (env.startAdmin i) s hs
    have htail := ih (stepNextSize env n i shapeSize) (GetAdminIndex (env.startAdmin i) s).2 hb.2.1
    simp only [loopGo, adminStep, hflag, if_true]
    refine ⟨?_, htail.2.1, le_trans hb.2.2 htail.2.2⟩
    intro nd hnd
    simp only [List.mem_cons] at hnd
    rcases hnd with hnd | hnd
    · rw [hnd]
      exact lt_of_lt_of_le hb.1 htail.2.2
    · exact htail.1 nd hnd

/-- With the admin category enabled AssignAdmins emits one record per
interned descriptor. -/
theorem assignAdmins_length (c : AttributesController) (l : List AdminInfo)
    (h : c.kAdminCategory = true) : (AssignAdmins c l).length = l.length := by
  simp [AssignAdmins, h]

/-- C7 counterexample: on a single-edge path with a missing end tile the
final node's admin index is set to 0 but no admin is ever interned, so the
admin list is empty and 0 is not a valid position — the claimed invariant
fails even though node admin indices are emitted. -/
theorem admin_index_counterexample :
    ¬ (∀ nd ∈ (Build envC7 1).node, nd.admin_index < (Build envC7 1).admin.length) := by
  decide

/-- C7 amended: when node admin indices are emitted, the admin category is
enabled, and every end-tile lookup succeeds (for the single-edge branch:
trivialEndTile is present), every node's admin index is a valid position in
the leg's admin list. -/
theorem admin_index_bounds (env : BuildEnv) (n : Nat) (h1 : 1 ≤ n)
    (hflag : env.ctrl.kNodeaAdminIndex = true)
    (hcat : env.ctrl.kAdminCategory = true)
    (htile : n = 1 → env.trivialEndTile.isSome = true) :
    ∀ nd ∈ (Build env n).node, nd.admin_index < (Build env n).admin.length := by
  by_cases hn1 : n = 1
  · subst hn1
    obtain ⟨a, ha⟩ := Option.isSome_iff_exists.mp (htile rfl)
    intro nd hnd
    simp only [Build, if_pos rfl, buildTrivial, ha, hflag, if_true] at hnd ⊢
    have hget : GetAdminIndex a emptyAdminState =
        (0, ⟨[(a, 0)], [a]⟩) := by
      rfl
    rw [hget] at hnd ⊢
    rw [assignAdmins_length _ _ hcat]
    simp only [List.mem_cons, List.mem_singleton] at hnd
    rcases hnd with hnd | hnd | hnd
    · rw [hnd]
      simp
    · rw [hnd]
      simp
    · exact absurd hnd (List.not_mem_nil nd)
  · intro nd hnd
    have hb := loopGo_admin_bound env n hflag (List.range n) 0 emptyAdminState
      (by intro p hp; simp [emptyAdminState] at hp)
    simp only [Build, if_neg hn1] at hnd ⊢
    rw [assignAdmins_length _ _ hcat]
    exact hb.1 nd hnd

/-- Witness for the amended C7 on a single-edge path with its end tile
present. -/
theorem admin_index_bounds_witness :
    envC7w.ctrl.kNodeaAdminIndex = true ∧ envC7w.ctrl.kAdminCategory = true ∧
    envC7w.trivialEndTile.isSome = true ∧
    ∀ nd ∈ (Build envC7w 1).node, nd.admin_index < (Build envC7w 1).admin.length :=
  ⟨by decide, by decide, by decide,
    admin_index_bounds envC7w 1 (by decide) (by decide) (by decide) (fun _ => by decide)⟩

theorem setTransLast_concat (l : List PathCost) (x : PathCost) (t : CostPair) :
    setTransLast (l ++ [x]) t = l ++ [{ x with transition_cost := some t }] := by
  simp [setTransLast, List.getLast?_concat, List.dropLast_concat]

theorem setTransLast_length (l : List PathCost) (t : CostPair) :
    (setTransLast l t).length = l.length := by
  rcases l.eq_nil_or_concat' with rfl | ⟨l', x, rfl⟩
  · rfl
  · rw [setTransLast_concat]
    simp

theorem setTransLast_getLast_transition (l : List PathCost) (t : CostPair) (h : l ≠ []) :
    (setTransLast l t).getLast?.map PathCost.transition_cost = some (some t) := by
  rcases l.eq_nil_or_concat' with rfl | ⟨l', x, rfl⟩
  · exact absurd rfl h
  · rw [setTransLast_concat, List.getLast?_concat]
    rfl

theorem setTransLast_getLast_elapsed (l : List PathCost) (t : CostPair) :
    (setTransLast l t).getLast?.map PathCost.elapsed_cost =
      l.getLast?.map PathCost.elapsed_cost := by
  rcases l.eq_nil_or_concat' with rfl | ⟨l', x, rfl⟩
  · rfl
  · rw [setTransLast_concat, List.getLast?_concat, List.getLast?_concat]
    rfl

/-- Structure of the label replay: the first node keeps its prefix with one
entry whose elapsed cost is untouched; every later node either is untouched
or gains exactly one entry, and when there are at least as many labels as
later nodes every later node gains exactly one entry. -/
theorem applyLabelsGo_shape (ls : List RecostLabel) :
    ∀ (h : List PathCost) (x : PathCost) (rest : List (List PathCost)),
      ∃ y ys,
        applyLabelsGo ls ((h ++ [x]) :: rest) = (h ++ [y]) :: ys ∧
        y.elapsed_cost = x.elapsed_cost ∧
        List.Forall₂ (fun a b => b = a ∨ ∃ z, b = a ++ [z]) rest ys ∧
        (rest.length ≤ ls.length →
          List.Forall₂ (fun a b => ∃ z, b = a ++ [z]) rest ys) := by
  induction ls with
  | nil =>
    intro h x rest
    refine ⟨x, rest, by simp [applyLabelsGo], rfl, ?_, ?_⟩
    · exact List.forall₂_same.mpr (fun a _ => Or.inl rfl)
    · intro hle
      have : rest = [] := List.length_eq_zero.mp (Nat.le_zero.mp hle)
      rw [this]
      exact List.Forall₂.nil
  | cons lab ls ih =>
    intro h x rest
    cases rest with
    | nil =>
      refine ⟨{ x with transition_cost := some lab.transition }, [], ?_, rfl,
        List.Forall₂.nil, fun _ => List.Forall₂.nil⟩
      simp [applyLabelsGo, setTransLast_concat]
    | cons nxt rest2 =>
      obtain ⟨y2, ys2, heq, hel, hfor, hforAll⟩ := ih nxt ⟨some lab.cost, none⟩ rest2
      refine ⟨{ x with transition_cost := some lab.transition }, (nxt ++ [y2]) :: ys2,
        ?_, rfl, ?_, ?_⟩
      · simp only [applyLabelsGo, setTransLast_concat, heq]
      · exact List.Forall₂.cons (Or.inr ⟨y2, rfl⟩) hfor
      · intro hle
        simp only [List.length_cons] at hle
        exact List.Forall₂.cons ⟨y2, rfl⟩ (hforAll (by omega))

theorem forall2_pad_lengths :
    ∀ (xs ys : List (List PathCost)) (p : Nat),
      List.Forall₂ (fun a b => b = a ++ [nullRecost]) xs ys →
      (∀ a ∈ xs, a.length = p) → ∀ b ∈ ys, b.length = p + 1 := by
  intro xs ys p hfor
  induction hfor with
  | nil => intro _ b hb; exact absurd hb (List.not_mem_nil b)
  | cons ha hl ih =>
    intro hlen b hb
    rcases List.mem_cons.mp hb with hb | hb
    · rw [hb, ha]
      simp only [List.length_append, List.length_singleton]
      rw [hlen _ (List.mem_cons_self _ _)]
    · exact ih (fun a hmem => hlen a (List.mem_cons_of_mem _ hmem)) b hb

theorem forall2_append_lengths :
    ∀ (xs ys : List (List PathCost)) (p : Nat),
      List.Forall₂ (fun a b => ∃ z, b = a ++ [z]) xs ys →
      (∀ a ∈ xs, a.length = p) → ∀ b ∈ ys, b.length = p + 1 := by
  intro xs ys p hfor
  induction hfor with
  | nil => intro _ b hb; exact absurd hb (List.not_mem_nil b)
  | cons ha hl ih =>
    intro hlen b hb
    rcases List.mem_cons.mp hb with hb | hb
    · obtain ⟨z, hz⟩ := ha
      rw [hb, hz]
      simp only [List.length_append, List.length_singleton]
      rw [hlen _ (List.mem_cons_self _ _)]
    · exact ih (fun a hmem => hlen a (List.mem_cons_of_mem _ hmem)) b hb

theorem forall2_append_ne_nil :
    ∀ (xs ys : List (List PathCost)),
      List.Forall₂ (fun a b => ∃ z, b = a ++ [z]) xs ys →
      ∀ b ∈ ys, b ≠ [] := by
  intro xs ys hfor
  induction hfor with
  | nil => intro b hb; exact absurd hb (List.not_mem_nil b)
  | cons ha hl ih =>
    intro b hb
    rcases List.mem_cons.mp hb with hb | hb
    · obtain ⟨z, hz⟩ := ha
      rw [hb, hz]
      simp
    · exact ih b hb

theorem setTransAt_length (ns : List (List PathCost)) :
    ∀ (i : Nat) (t : CostPair), (setTransAt ns i t).length = ns.length := by
  induction ns with
  | nil => intro i t; rfl
  | cons nd rest ih =>
    intro i t
    cases i with
    | zero => simp [setTransAt, setTransLast_length]
    | succ i => simp [setTransAt, ih i t]

theorem setTransAt_mem_length (ns : List (List PathCost)) (q : Nat)
    (hlen : ∀ a ∈ ns, a.length = q) :
    ∀ (i : Nat) (t : CostPair) (b : List PathCost), b ∈ setTransAt ns i t → b.length = q := by
  induction ns with
  | nil => intro i t b hb; exact absurd hb (List.not_mem_nil b)
  | cons nd rest ih =>
    intro i t b hb
    cases i with
    | zero =>
      rcases List.mem_cons.mp hb with hb | hb
      · rw [hb, setTransLast_length]
        exact hlen nd (List.mem_cons_self _ _)
      · exact hlen b (List.mem_cons_of_mem _ hb)
    | succ i =>
      rcases List.mem_cons.mp hb with hb | hb
      · rw [hb]
        exact hlen nd (List.mem_cons_self _ _)
      · exact ih (fun a ha => hlen a (List.mem_cons_of_mem _ ha)) i t b hb

theorem setTransAt_getLast (t : CostPair) :
    ∀ (ns : List (List PathCost)), ns ≠ [] →
      (setTransAt ns (ns.length - 1) t).getLast? =
        ns.getLast?.map (fun nd => setTransLast nd t) := by
  intro ns
  induction ns with
  | nil => intro h; exact absurd rfl h
  | cons nd rest ih =>
    intro _
    cases rest with
    | nil => rfl
    | cons nd2 rest2 =>
      have hidx : (nd :: nd2 :: rest2).length - 1 = rest2.length + 1 := by
        simp
      rw [hidx]
      show (nd :: setTransAt (nd2 :: rest2) rest2.length t).getLast? =
        ((nd :: nd2 :: rest2).getLast?).map (fun nd => setTransLast nd t)
      have hidx2 : rest2.length = (nd2 :: rest2).length - 1 := by simp
      rcases hst : setTransAt (nd2 :: rest2) rest2.length t with _ | ⟨z, zs⟩
      · exfalso
        have := setTransAt_length (nd2 :: rest2) rest2.length t
        rw [hst] at this
        simp at this
      · rw [List.getLast?_cons_cons, ← hst, List.getLast?_cons_cons]
        rw [hidx2]
        exact ih (by simp)

theorem pad_map_helper (p should : Nat) (hps : should = p + 1) :
    ∀ (rest ys : List (List PathCost)),
      List.Forall₂ (fun a b => b = a ∨ ∃ z, b = a ++ [z]) rest ys →
      (∀ a ∈ rest, a.length = p) →
      List.Forall₂ (fun a b =>
        (if b.length = should then b.dropLast ++ [nullRecost] else b ++ [nullRecost]) =
          a ++ [nullRecost]) rest ys := by
  intro rest ys hfor
  induction hfor with
  | nil => intro _; exact List.Forall₂.nil
  | cons ha hl ih =>
    intro hlen
    refine List.Forall₂.cons ?_ (ih (fun a hmem => hlen a (List.mem_cons_of_mem _ hmem)))
    rcases ha with rfl | ⟨z, rfl⟩
    · rw [if_neg]
      rw [hlen _ (List.mem_cons_self _ _), hps]
      omega
    · rw [if_pos]
      · rw [List.dropLast_concat]
      · simp only [List.length_append, List.length_singleton]
        rw [hlen _ (List.mem_cons_self _ _), hps]

/-- A thrown replay nets exactly one null entry on every node: those that
received the partial entry have it removed and replaced, the others gain
the null entry directly. -/
theorem accumulateOnce_thrown (n0 : List PathCost) (rest : List (List PathCost))
    (labels : List RecostLabel) (p : Nat)
    (h0 : n0.length = p) (hrest : ∀ nd ∈ rest, nd.length = p) :
    List.Forall₂ (fun a b => b = a ++ [nullRecost]) (n0 :: rest)
      (accumulateRecostingOnce (n0 :: rest) (RecostOutcome.thrown labels)) := by
  obtain ⟨y, ys, heq, _, hfor, _⟩ :=
    applyLabelsGo_shape labels n0 ⟨some ⟨0, 0⟩, none⟩ rest
  simp only [accumulateRecostingOnce, heq]
  simp only [List.headD_cons, List.map_cons]
  refine List.Forall₂.cons ?_ ?_
  · simp [List.dropLast_concat]
  · rw [List.forall₂_map_right_iff]
    have hlen0 : (n0 ++ [y]).length = p + 1 := by
      simp [h0]
    have := pad_map_helper p ((n0 ++ [y]).length) hlen0 rest ys hfor hrest
    exact this

/-- One pass preserves the node count and takes every node's recost count
from p to p + 1, for a well-formed outcome. -/
theorem accumulateOnce_lengths (nodes : List (List PathCost)) (oc : RecostOutcome)
    (p : Nat) (hne : nodes ≠ []) (hlen : ∀ nd ∈ nodes, nd.length = p)
    (hwf : WFOutcome nodes.length oc = true) :
    (accumulateRecostingOnce nodes oc).length = nodes.length ∧
    ∀ nd ∈ accumulateRecostingOnce nodes oc, nd.length = p + 1 := by
  rcases nodes with _ | ⟨n0, rest⟩
  · exact absurd rfl hne
  rcases oc with labels | labels
  · obtain ⟨y, ys, heq, _, _, hforAll⟩ :=
      applyLabelsGo_shape labels n0 ⟨some ⟨0, 0⟩, none⟩ rest
    have hwf2 : labels.length = rest.length := by
      simp only [WFOutcome, List.length_cons, Nat.add_sub_cancel, beq_iff_eq] at hwf
      exact hwf
    have hforA := hforAll (le_of_eq hwf2.symm)
    have hys : ys.length = rest.length := (List.Forall₂.length_eq hforA).symm
    have hsteplen : ∀ nd ∈ (n0 ++ [y]) :: ys, nd.length = p + 1 := by
      intro nd hnd
      rcases List.mem_cons.mp hnd with hnd | hnd
      · rw [hnd]
        simp [hlen n0 (List.mem_cons_self _ _)]
      · exact forall2_append_lengths rest ys p hforA
          (fun a ha => hlen a (List.mem_cons_of_mem _ ha)) nd hnd
    simp only [accumulateRecostingOnce, heq]
    constructor
    · rw [setTransAt_length]
      simp [hys]
    · intro nd hnd
      exact setTransAt_mem_length _ _ hsteplen _ _ nd hnd
  · have hf := accumulateOnce_thrown n0 rest labels p
      (hlen n0 (List.mem_cons_self _ _))
      (fun a ha => hlen a (List.mem_cons_of_mem _ ha))
    constructor
    · exact (List.Forall₂.length_eq hf).symm
    · exact forall2_pad_lengths _ _ p hf hlen

/-- The requested recostings leave every node with the same recost count:
one entry per costing. -/
theorem accumulateForward_lengths (ocs : List RecostOutcome) :
    ∀ (nodes : List (List PathCost)) (p : Nat), nodes ≠ [] →
      (∀ nd ∈ nodes, nd.length = p) →
      (∀ oc ∈ ocs, WFOutcome nodes.length oc = true) →
      (AccumulateRecostingInfoForward ocs nodes).length = nodes.length ∧
      ∀ nd ∈ AccumulateRecostingInfoForward ocs nodes, nd.length = p + ocs.length := by
  induction ocs with
  | nil =>
    intro nodes p _ hlen _
    exact ⟨rfl, fun nd hnd => by rw [hlen nd hnd]; simp⟩
  | cons oc ocs ih =>
    intro nodes p hne hlen hwf
    have h1 := accumulateOnce_lengths nodes oc p hne hlen (hwf oc (List.mem_cons_self _ _))
    have hne2 : accumulateRecostingOnce nodes oc ≠ [] := by
      intro hc
      have h0 := h1.1
      rw [hc] at h0
      have hz : nodes.length = 0 := by simpa using h0.symm
      exact hne (List.length_eq_zero.mp hz)
    have ih2 := ih (accumulateRecostingOnce nodes oc) (p + 1) hne2 h1.2
      (by
        intro oc2 hoc2
        rw [h1.1]
        exact hwf oc2 (List.mem_cons_of_mem _ hoc2))
    have hfold : AccumulateRecostingInfoForward (oc :: ocs) nodes =
        AccumulateRecostingInfoForward ocs (accumulateRecostingOnce nodes oc) := rfl
    rw [hfold]
    refine ⟨by rw [ih2.1, h1.1], ?_⟩
    intro nd hnd
    have := ih2.2 nd hnd
    simp only [List.length_cons]
    omega

/-- A successful replay leaves the first node's entry for this costing with
zero elapsed cost and the final node's entry with zero transition cost. -/
theorem accumulateOnce_success (n0 : List PathCost) (rest : List (List PathCost))
    (labels : List RecostLabel) (hwf : labels.length = rest.length) :
    (∃ nd0, (accumulateRecostingOnce (n0 :: rest)
        (RecostOutcome.success labels)).head? = some nd0 ∧
      nd0.getLast?.map PathCost.elapsed_cost = some (some ⟨0, 0⟩)) ∧
    (∃ ndL, (accumulateRecostingOnce (n0 :: rest)
        (RecostOutcome.success labels)).getLast? = some ndL ∧
      ndL.getLast?.map PathCost.transition_cost = some (some ⟨0, 0⟩)) := by
  obtain ⟨y, ys, heq, hel, _, hforAll⟩ :=
    applyLabelsGo_shape labels n0 ⟨some ⟨0, 0⟩, none⟩ rest
  have hforA := hforAll (le_of_eq hwf.symm)
  have hys : ys.length = rest.length := (List.Forall₂.length_eq hforA).symm
  simp only [accumulateRecostingOnce, heq]
  rcases hk : labels.length with _ | k
  · have hrest0 : rest.length = 0 := by omega
    have hys0 : ys = [] := List.length_eq_zero.mp (by omega)
    subst hys0
    constructor
    · refine ⟨setTransLast (n0 ++ [y]) ⟨0, 0⟩, rfl, ?_⟩
      rw [setTransLast_getLast_elapsed, List.getLast?_concat]
      simp [hel]
    · refine ⟨setTransLast (n0 ++ [y]) ⟨0, 0⟩, rfl, ?_⟩
      exact setTransLast_getLast_transition (n0 ++ [y]) ⟨0, 0⟩ (by simp)
  · have hysne : ys ≠ [] := by
      intro hc
      rw [hc] at hys
      simp only [List.length_nil] at hys
      omega
    constructor
    · refine ⟨n0 ++ [y], rfl, ?_⟩
      rw [List.getLast?_concat]
      simp [hel]
    · have hklen : k = ys.length - 1 := by omega
      rcases hst : setTransAt ys k ⟨0, 0⟩ with _ | ⟨z, zs⟩
      · exfalso
        have := setTransAt_length ys k ⟨0, 0⟩
        rw [hst] at this
        have hz : ys.length = 0 := by simpa using this.symm
        exact hysne (List.length_eq_zero.mp hz)
      · have hgl : ((n0 ++ [y]) :: setTransAt ys k ⟨0, 0⟩).getLast? =
            (setTransAt ys k ⟨0, 0⟩).getLast? := by
          rw [hst, List.getLast?_cons_cons]
        have hgl2 : (setTransAt ys k ⟨0, 0⟩).getLast? =
            ys.getLast?.map (fun nd => setTransLast nd ⟨0, 0⟩) := by
          rw [hklen]
          exact setTransAt_getLast ⟨0, 0⟩ ys hysne
        have hyl : ys.getLast? = some (ys.getLast hysne) :=
          List.getLast?_eq_getLast_of_ne_nil hysne
        have hylne : ys.getLast hysne ≠ [] :=
          forall2_append_ne_nil rest ys hforA _ (List.getLast_mem hysne)
        refine ⟨setTransLast (ys.getLast hysne) ⟨0, 0⟩, ?_, ?_⟩
        · show (setTransAt ((n0 ++ [y]) :: ys) (k + 1) ⟨0, 0⟩).getLast? = _
          rw [setTransAt, hgl, hgl2, hyl]
          rfl
        · exact setTransLast_getLast_transition _ _ hylne

/-- C3: For every leg and requested recosting, a throwing replay appends a
null entry to every node's recosts vector, so after
AccumulateRecostingInfoForward every node carries the same number of recost
entries (one per costing); and a successful replay leaves the first node's
entry with elapsed cost 0 and the final node's entry with transition cost
0. -/
theorem recosting_pad_and_zero (nodes : List (List PathCost)) (p : Nat)
    (labelsS labelsT : List RecostLabel) (ocs : List RecostOutcome)
    (hne : nodes ≠ []) (hlen : ∀ nd ∈ nodes, nd.length = p)
    (hwfS : labelsS.length = nodes.length - 1)
    (hwfL : ∀ oc ∈ ocs, WFOutcome nodes.length oc = true) :
    List.Forall₂ (fun a b => b = a ++ [nullRecost]) nodes
      (accumulateRecostingOnce nodes (RecostOutcome.thrown labelsT)) ∧
    (∀ nd ∈ AccumulateRecostingInfoForward ocs nodes, nd.length = p + ocs.length) ∧
    (∃ nd0, (accumulateRecostingOnce nodes
        (RecostOutcome.success labelsS)).head? = some nd0 ∧
      nd0.getLast?.map PathCost.elapsed_cost = some (some ⟨0, 0⟩)) ∧
    (∃ ndL, (accumulateRecostingOnce nodes
        (RecostOutcome.success labelsS)).getLast? = some ndL ∧
      ndL.getLast?.map PathCost.transition_cost = some (some ⟨0, 0⟩)) := by
  rcases nodes with _ | ⟨n0, rest⟩
  · exact absurd rfl hne
  have hwfS2 : labelsS.length = rest.length := by
    simpa using hwfS
  refine ⟨?_, ?_, ?_⟩
  · exact accumulateOnce_thrown n0 rest labelsT p
      (hlen n0 (List.mem_cons_self _ _))
      (fun a ha => hlen a (List.mem_cons_of_mem _ ha))
  · exact (accumulateForward_lengths ocs (n0 :: rest) p hne hlen hwfL).2
  · exact accumulateOnce_success n0 rest labelsS hwfS2

/-- Witness for C3 on a three-node leg with empty recosts, one throwing
costing, and a successful replay delivering one label per edge. -/
theorem recosting_pad_and_zero_witness :
    (([[], [], []] : List (List PathCost)) ≠ []) ∧
    (∀ nd ∈ AccumulateRecostingInfoForward [RecostOutcome.thrown []]
        [[], [], []], nd.length = 0 + 1) ∧
    (∃ nd0, (accumulateRecostingOnce [[], [], []]
        (RecostOutcome.success [⟨⟨1, 1⟩, ⟨2, 2⟩⟩, ⟨⟨1, 1⟩, ⟨3, 3⟩⟩])).head? = some nd0 ∧
      nd0.getLast?.map PathCost.elapsed_cost = some (some ⟨0, 0⟩)) := by
  have h := recosting_pad_and_zero [[], [], []] 0
    [⟨⟨1, 1⟩, ⟨2, 2⟩⟩, ⟨⟨1, 1⟩, ⟨3, 3⟩⟩] [] [RecostOutcome.thrown []]
    (by decide)
    (by
      intro nd hnd
      have : nd = [] := by
        rcases List.mem_cons.mp hnd with h | h
        · exact h
        rcases List.mem_cons.mp h with h | h
        · exact h
        rcases List.mem_cons.mp h with h | h
        · exact h
        · exact absurd h (List.not_mem_nil nd)
      rw [this]
      rfl)
    (by decide) (by decide)
  exact ⟨by decide, h.2.1, h.2.2.1⟩
